import Mathlib

/-!
Shallow embedding of the AVL obstacle tree of this repository
(src/logic/obstaculo.py, src/logic/nodo_avl.py, src/logic/arbol_avl.py).

Python objects become inductive values; the in-place mutation of the
Python code becomes explicit state passing: every method that mutates the
tree returns the new tree (together with its boolean result when the
Python method returns one).  Python ints are modelled as Lean Int.
The Optional[NodoAVL] child pointers are modelled by a dedicated
constructor nil of the node type.
-/

/-- TipoObstaculo enum of src/logic/obstaculo.py. -/
inductive TipoObstaculo where
  | roca
  | cono
  | hueco
  | aceite
  | barrera
deriving DecidableEq, Repr

/-- Obstaculo of src/logic/obstaculo.py: position, tipo and pixel size. -/
structure Obstaculo where
  x : Int
  y : Int
  tipo : TipoObstaculo
  ancho : Int
  alto : Int
deriving DecidableEq, Repr

/-- Obstaculo.__init__: barreras get alto 100, every other tipo keeps the
given alto (the ancho and alto parameters default to 30 at call sites). -/
def Obstaculo.crear (x y : Int) (tipo : TipoObstaculo) (ancho alto : Int) : Obstaculo :=
  { x := x, y := y, tipo := tipo, ancho := ancho,
    alto := if tipo = TipoObstaculo.barrera then 100 else alto }

/-- Obstaculo.esta_en_rango: both coordinates inside the closed box. -/
def Obstaculo.esta_en_rango (o : Obstaculo) (xMin xMax yMin yMax : Int) : Bool :=
  (decide (xMin ≤ o.x ∧ o.x ≤ xMax)) && (decide (yMin ≤ o.y ∧ o.y ≤ yMax))

/-- NodoAVL.es_mayor_que, as a relation on the stored obstacles: first the
x coordinate, then y as tie break. -/
def esMayorQue (self otro : Obstaculo) : Bool :=
  if self.x > otro.x then true
  else if self.x = otro.x then decide (self.y > otro.y)
  else false

/-- NodoAVL.es_igual_a: same coordinates, attributes are ignored. -/
def esIgualA (self otro : Obstaculo) : Bool :=
  decide (self.x = otro.x) && decide (self.y = otro.y)

/-- NodoAVL of src/logic/nodo_avl.py together with the None pointer:
nil is Python None, node carries the obstaculo, both children and the
stored altura field. -/
inductive NodoAVL where
  | nil
  | node (obstaculo : Obstaculo) (izquierdo derecho : NodoAVL) (altura : Int)
deriving DecidableEq, Repr

namespace NodoAVL

/-- ArbolAVL.obtener_altura: stored altura of a node, 0 for None. -/
def alturaOpt : NodoAVL → Int
  | nil => 0
  | node _ _ _ h => h

/-- NodoAVL.obtener_factor_balance (0 on None, where Python never calls it). -/
def factorBalance : NodoAVL → Int
  | nil => 0
  | node _ l r _ => alturaOpt l - alturaOpt r

/-- Rebuilding a node after NodoAVL.actualizar_altura: the stored altura
becomes 1 + max of the children's stored alturas. -/
def conAltura (o : Obstaculo) (l r : NodoAVL) : NodoAVL :=
  node o l r (1 + max (alturaOpt l) (alturaOpt r))

/-- True on a real node, false on None. -/
def esNodo : NodoAVL → Bool
  | nil => false
  | node _ _ _ _ => true

/-- Number of nodes of the (finite) tree. -/
def sizeT : NodoAVL → Nat
  | nil => 0
  | node _ l r _ => 1 + sizeT l + sizeT r

end NodoAVL

open NodoAVL

lemma alturaOpt_nil : alturaOpt NodoAVL.nil = 0 := rfl

lemma alturaOpt_node (o : Obstaculo) (l r : NodoAVL) (h : Int) :
    alturaOpt (NodoAVL.node o l r h) = h := rfl

lemma factorBalance_node (o : Obstaculo) (l r : NodoAVL) (h : Int) :
    factorBalance (NodoAVL.node o l r h) = alturaOpt l - alturaOpt r := rfl

/-- ArbolAVL.rotar_derecha.  Python dereferences nodo.izquierdo, so it is
only ever called when the left child is a node; on any other shape the
tree is returned unchanged (that branch is unreachable from balancear). -/
def rotarDerecha : NodoAVL → NodoAVL
  | .node o (.node ol oll olr _) r _ => conAltura ol oll (conAltura o olr r)
  | t => t

/-- ArbolAVL.rotar_izquierda, mirror image of rotarDerecha. -/
def rotarIzquierda : NodoAVL → NodoAVL
  | .node o l (.node od odl odr _) _ => conAltura od (conAltura o l odl) odr
  | t => t

/-- ArbolAVL.balancear: the four rotation cases guarded exactly as in the
source (the truthiness test on the child mirrors the Python and
short-circuit). -/
def balancear (t : NodoAVL) : NodoAVL :=
  match t with
  | .nil => .nil
  | .node o l r h =>
    if factorBalance (.node o l r h) > 1 ∧ esNodo l = true ∧ factorBalance l ≥ 0 then
      rotarDerecha (.node o l r h)
    else if factorBalance (.node o l r h) < -1 ∧ esNodo r = true ∧ factorBalance r ≤ 0 then
      rotarIzquierda (.node o l r h)
    else if factorBalance (.node o l r h) > 1 ∧ esNodo l = true ∧ factorBalance l < 0 then
      rotarDerecha (.node o (rotarIzquierda l) r h)
    else if factorBalance (.node o l r h) < -1 ∧ esNodo r = true ∧ factorBalance r > 0 then
      rotarIzquierda (.node o l (rotarDerecha r) h)
    else .node o l r h

/-- ArbolAVL._insertar_recursivo. -/
def insertarRec : NodoAVL → Obstaculo → NodoAVL
  | .nil, o => .node o .nil .nil 1
  | .node no l r _, o =>
    if esMayorQue no o = true then
      balancear (conAltura no (insertarRec l o) r)
    else
      balancear (conAltura no l (insertarRec r o))

/-- ArbolAVL._buscar_obstaculo: returns the subtree rooted at the node
holding an obstaculo with the searched coordinates, or none. -/
def buscarObstaculo : NodoAVL → Obstaculo → Option NodoAVL
  | .nil, _ => none
  | .node no l r h, o =>
    if esIgualA no o = true then some (.node no l r h)
    else if esMayorQue no o = true then buscarObstaculo l o
    else buscarObstaculo r o

/-- ArbolAVL._encontrar_minimo: the while loop walking left, applied to the
node whose obstaculo is o and whose left child is l. -/
def encontrarMinimo : Obstaculo → NodoAVL → Obstaculo
  | o, .nil => o
  | _, .node o' l' _ _ => encontrarMinimo o' l'

/-- ArbolAVL._eliminar_recursivo.  Leaf and one-child cases return the
remaining child directly (no rebalancing, as in the source); the
two-children case copies the in-order successor up and deletes it from the
right subtree, then updates the altura and rebalances. -/
def eliminarRec : NodoAVL → Obstaculo → NodoAVL
  | .nil, _ => .nil
  | .node no l r _, o =>
    if esIgualA no o = true then
      match l, r with
      | .nil, .nil => .nil
      | .nil, .node ro rl rr rh => .node ro rl rr rh
      | .node lo ll lr lh, .nil => .node lo ll lr lh
      | .node lo ll lr lh, .node ro rl rr rh =>
        let sucesor := encontrarMinimo ro rl
        balancear (conAltura sucesor (.node lo ll lr lh)
          (eliminarRec (.node ro rl rr rh) sucesor))
    else if esMayorQue no o = true then
      balancear (conAltura no (eliminarRec l o) r)
    else
      balancear (conAltura no l (eliminarRec r o))

/-- ArbolAVL._buscar_rango_recursivo with the mutable resultado list passed
as an accumulator; the node is appended before the recursive calls, and a
subtree is only explored when the x pruning test of the source allows it. -/
def buscarRangoRec : NodoAVL → Int → Int → Int → Int → List Obstaculo → List Obstaculo
  | .nil, _, _, _, _, resultado => resultado
  | .node o l r _, xMin, xMax, yMin, yMax, resultado =>
    let res1 := if o.esta_en_rango xMin xMax yMin yMax = true then resultado ++ [o]
      else resultado
    let res2 := if o.x ≥ xMin then buscarRangoRec l xMin xMax yMin yMax res1 else res1
    if o.x ≤ xMax then buscarRangoRec r xMin xMax yMin yMax res2 else res2

/-- ArbolAVL._recorrido_inorder_recursivo with the accumulator made
explicit. -/
def inorderRec : NodoAVL → List Obstaculo → List Obstaculo
  | .nil, resultado => resultado
  | .node o l r _, resultado => inorderRec r (inorderRec l resultado ++ [o])

/-- The in-order listing of the tree (inorderRec started from []). -/
def inorder : NodoAVL → List Obstaculo
  | .nil => []
  | .node o l r _ => inorder l ++ o :: inorder r

/-- ArbolAVL.recorrido_en_anchura: the while loop over the queue cola.
Only non-None children are enqueued, exactly as in the source (the nil
queue entry case is unreachable but kept total). -/
def bfsLoop : List NodoAVL → List Obstaculo → List Obstaculo
  | [], resultado => resultado
  | .nil :: cola, resultado => bfsLoop cola resultado
  | .node o l r _ :: cola, resultado =>
    bfsLoop (cola ++ (if esNodo l = true then [l] else [])
        ++ (if esNodo r = true then [r] else []))
      (resultado ++ [o])
termination_by cola _ => 2 * (cola.map sizeT).sum + cola.length
decreasing_by
all_goals simp [sizeT]
all_goals split <;> split <;> simp [sizeT] <;> omega

/-- ArbolAVL of src/logic/arbol_avl.py: the root pointer and the running
total_obstaculos counter. -/
structure ArbolAVL where
  raiz : NodoAVL
  total_obstaculos : Int
deriving DecidableEq, Repr

/-- ArbolAVL.__init__. -/
def arbolVacio : ArbolAVL := { raiz := .nil, total_obstaculos := 0 }

/-- ArbolAVL.insertar: returns the boolean result of the Python method
together with the tree after the call. -/
def insertar (a : ArbolAVL) (o : Obstaculo) : Bool × ArbolAVL :=
  match a.raiz with
  | .nil => (true, { raiz := .node o .nil .nil 1, total_obstaculos := a.total_obstaculos + 1 })
  | .node ro rl rr rh =>
    if (buscarObstaculo (.node ro rl rr rh) o).isSome then (false, a)
    else (true, { raiz := insertarRec (.node ro rl rr rh) o,
                  total_obstaculos := a.total_obstaculos + 1 })

/-- ArbolAVL.eliminar: returns the boolean result of the Python method
together with the tree after the call. -/
def eliminar (a : ArbolAVL) (o : Obstaculo) : Bool × ArbolAVL :=
  match a.raiz with
  | .nil => (false, a)
  | .node ro rl rr rh =>
    if (buscarObstaculo (.node ro rl rr rh) o).isSome = false then (false, a)
    else (true, { raiz := eliminarRec (.node ro rl rr rh) o,
                  total_obstaculos := a.total_obstaculos - 1 })

/-- ArbolAVL.buscar_en_rango. -/
def buscarEnRango (a : ArbolAVL) (xMin xMax yMin yMax : Int) : List Obstaculo :=
  buscarRangoRec a.raiz xMin xMax yMin yMax []

/-- ArbolAVL.recorrido_en_profundidad. -/
def recorridoEnProfundidad (a : ArbolAVL) : List Obstaculo :=
  inorderRec a.raiz []

/-- ArbolAVL.recorrido_en_anchura. -/
def recorridoEnAnchura (a : ArbolAVL) : List Obstaculo :=
  match a.raiz with
  | .nil => []
  | .node ro rl rr rh => bfsLoop [.node ro rl rr rh] []

/-- ArbolAVL.obtener_total_obstaculos. -/
def obtenerTotalObstaculos (a : ArbolAVL) : Int := a.total_obstaculos

/-- ArbolAVL.esta_vacio. -/
def estaVacio (a : ArbolAVL) : Bool := a.raiz = NodoAVL.nil

/-!  Specification-level predicates about the tree. -/

/-- The strict lexicographic order on obstacle keys that the comparison
methods es_mayor_que / es_igual_a implement: x first, y as tie break. -/
def lexLt (a b : Obstaculo) : Prop := a.x < b.x ∨ (a.x = b.x ∧ a.y < b.y)

instance (a b : Obstaculo) : Decidable (lexLt a b) := by
  unfold lexLt
  infer_instance

/-- Key equality: same coordinate pair, attributes ignored. -/
def ClaveEq (a b : Obstaculo) : Prop := a.x = b.x ∧ a.y = b.y

instance (a b : Obstaculo) : Decidable (ClaveEq a b) := by
  unfold ClaveEq
  infer_instance

/-- Every obstacle of the subtree satisfies p. -/
def AllT (p : Obstaculo → Prop) : NodoAVL → Prop
  | .nil => True
  | .node o l r _ => p o ∧ AllT p l ∧ AllT p r

instance instDecidableAllT (p : Obstaculo → Prop) [DecidablePred p] :
    (t : NodoAVL) → Decidable (AllT p t)
  | .nil => by unfold AllT; infer_instance
  | .node o l r h =>
    have : Decidable (AllT p l) := instDecidableAllT p l
    have : Decidable (AllT p r) := instDecidableAllT p r
    by unfold AllT; infer_instance

/-- The binary-search-tree ordering invariant with respect to lexLt. -/
def Ordered : NodoAVL → Prop
  | .nil => True
  | .node o l r _ =>
    AllT (fun e => lexLt e o) l ∧ AllT (fun e => lexLt o e) r ∧ Ordered l ∧ Ordered r

instance instDecidableOrdered : (t : NodoAVL) → Decidable (Ordered t)
  | .nil => by unfold Ordered; infer_instance
  | .node o l r h =>
    have : Decidable (Ordered l) := instDecidableOrdered l
    have : Decidable (Ordered r) := instDecidableOrdered r
    by unfold Ordered; infer_instance

/-- The stored altura field of every node is 1 + max of the alturas of its
children, so it equals the real height of a nonempty subtree. -/
def HeightOk : NodoAVL → Prop
  | .nil => True
  | .node _ l r h =>
    h = 1 + max (alturaOpt l) (alturaOpt r) ∧ HeightOk l ∧ HeightOk r

instance instDecidableHeightOk : (t : NodoAVL) → Decidable (HeightOk t)
  | .nil => by unfold HeightOk; infer_instance
  | .node o l r h =>
    have : Decidable (HeightOk l) := instDecidableHeightOk l
    have : Decidable (HeightOk r) := instDecidableHeightOk r
    by unfold HeightOk; infer_instance

/-- AVL balance with respect to the stored alturas. -/
def Balanceado : NodoAVL → Prop
  | .nil => True
  | .node _ l r _ =>
    -1 ≤ alturaOpt l - alturaOpt r ∧ alturaOpt l - alturaOpt r ≤ 1 ∧
      Balanceado l ∧ Balanceado r

instance instDecidableBalanced : (t : NodoAVL) → Decidable (Balanceado t)
  | .nil => by unfold Balanceado; infer_instance
  | .node o l r h =>
    have : Decidable (Balanceado l) := instDecidableBalanced l
    have : Decidable (Balanceado r) := instDecidableBalanced r
    by unfold Balanceado; infer_instance

/-- Real height of the subtree, computed from the structure alone. -/
def alturaReal : NodoAVL → Int
  | .nil => 0
  | .node _ l r _ => 1 + max (alturaReal l) (alturaReal r)

/-- Every node of the subtree has a real balance factor (height of the
left subtree minus height of the right subtree) in \x7b-1, 0, 1\x7d. -/
def BalFactorsOk : NodoAVL → Prop
  | .nil => True
  | .node _ l r _ =>
    (alturaReal l - alturaReal r = -1 ∨ alturaReal l - alturaReal r = 0 ∨
      alturaReal l - alturaReal r = 1) ∧ BalFactorsOk l ∧ BalFactorsOk r

/-- An obstacle with the given coordinate pair is stored in the tree. -/
def ContainsKey (t : NodoAVL) (o : Obstaculo) : Prop :=
  ∃ e ∈ inorder t, ClaveEq e o

instance (t : NodoAVL) (o : Obstaculo) : Decidable (ContainsKey t o) := by
  unfold ContainsKey
  infer_instance

/-- Insertion into a sorted list at the position the recursive insert of
the tree realises: walk past every element that is not greater than the
new one. -/
def insertarOrdenado (o : Obstaculo) : List Obstaculo → List Obstaculo
  | [] => [o]
  | x :: xs => if esMayorQue x o = true then o :: x :: xs else x :: insertarOrdenado o xs

/-- Removal of the first element whose coordinates equal those of o. -/
def eliminarClave (o : Obstaculo) : List Obstaculo → List Obstaculo
  | [] => []
  | x :: xs => if esIgualA x o = true then xs else x :: eliminarClave o xs

/-- One call of the public mutating interface. -/
inductive Op where
  | ins (o : Obstaculo)
  | del (o : Obstaculo)
deriving DecidableEq, Repr

/-- Run a sequence of insertar / eliminar calls and count the calls that
returned True: final tree, successful inserts, successful deletes. -/
def ejecutar : ArbolAVL → List Op → ArbolAVL × Nat × Nat
  | a, [] => (a, 0, 0)
  | a, Op.ins o :: resto =>
    let paso := insertar a o
    let fin := ejecutar paso.2 resto
    (fin.1, (if paso.1 = true then 1 else 0) + fin.2.1, fin.2.2)
  | a, Op.del o :: resto =>
    let paso := eliminar a o
    let fin := ejecutar paso.2 resto
    (fin.1, fin.2.1, (if paso.1 = true then 1 else 0) + fin.2.2)

/-- The tree after running a sequence of calls from the empty tree. -/
def runOps (ops : List Op) : ArbolAVL := (ejecutar arbolVacio ops).1

/-!  Basic facts about the key order. -/

lemma lexLt_trans {a b c : Obstaculo} (h1 : lexLt a b) (h2 : lexLt b c) : lexLt a c := by
  unfold lexLt at *
  omega

lemma lexLt_asymm {a b : Obstaculo} (h : lexLt a b) : ¬ lexLt b a := by
  unfold lexLt at *
  omega

lemma lexLt_not_claveEq {a b : Obstaculo} (h : lexLt a b) : ¬ ClaveEq a b := by
  unfold lexLt ClaveEq at *
  omega

lemma lexLt_total {a b : Obstaculo} (h1 : ¬ lexLt a b) (h2 : ¬ ClaveEq a b) : lexLt b a := by
  unfold lexLt ClaveEq at *
  omega

lemma claveEq_symm {a b : Obstaculo} (h : ClaveEq a b) : ClaveEq b a := by
  unfold ClaveEq at *
  omega

lemma claveEq_refl (a : Obstaculo) : ClaveEq a a := ⟨rfl, rfl⟩

lemma lexLt_of_lexLt_claveEq {a b c : Obstaculo} (h1 : lexLt a b) (h2 : ClaveEq b c) :
    lexLt a c := by
  unfold lexLt ClaveEq at *
  omega

lemma lexLt_of_claveEq_lexLt {a b c : Obstaculo} (h1 : ClaveEq a b) (h2 : lexLt b c) :
    lexLt a c := by
  unfold lexLt ClaveEq at *
  omega

lemma esMayorQue_eq_true_iff {a b : Obstaculo} : esMayorQue a b = true ↔ lexLt b a := by
  unfold esMayorQue lexLt
  split_ifs <;> simp <;> omega

lemma esIgualA_eq_true_iff {a b : Obstaculo} : esIgualA a b = true ↔ ClaveEq a b := by
  unfold esIgualA ClaveEq
  simp

/-!  The in-order listing and its interaction with rotations. -/

lemma inorderRec_eq : ∀ (t : NodoAVL) (acc : List Obstaculo),
    inorderRec t acc = acc ++ inorder t
  | .nil, acc => by simp [inorderRec, inorder]
  | .node o l r h, acc => by
    show inorderRec r (inorderRec l acc ++ [o]) = acc ++ inorder (.node o l r h)
    rw [inorderRec_eq l acc, inorderRec_eq r (acc ++ inorder l ++ [o])]
    simp [inorder]

lemma recorridoEnProfundidad_eq (a : ArbolAVL) :
    recorridoEnProfundidad a = inorder a.raiz := by
  simp [recorridoEnProfundidad, inorderRec_eq]

lemma inorder_conAltura (o : Obstaculo) (l r : NodoAVL) :
    inorder (conAltura o l r) = inorder l ++ o :: inorder r := rfl

lemma inorder_rotarDerecha : ∀ t : NodoAVL, inorder (rotarDerecha t) = inorder t
  | .nil => rfl
  | .node _ .nil _ _ => rfl
  | .node o (.node ol oll olr lh) r h => by
    simp [rotarDerecha, conAltura, inorder]

lemma inorder_rotarIzquierda : ∀ t : NodoAVL, inorder (rotarIzquierda t) = inorder t
  | .nil => rfl
  | .node _ _ .nil _ => rfl
  | .node o l (.node od odl odr dh) h => by
    simp [rotarIzquierda, conAltura, inorder]

lemma inorder_balancear (t : NodoAVL) : inorder (balancear t) = inorder t := by
  cases t with
  | nil => rfl
  | node o l r h =>
    simp only [balancear]
    split_ifs <;>
      simp [inorder, inorder_rotarDerecha, inorder_rotarIzquierda]

/-!  AllT, Ordered and the sorted in-order listing. -/

lemma allT_iff (p : Obstaculo → Prop) :
    ∀ t : NodoAVL, AllT p t ↔ ∀ e ∈ inorder t, p e
  | .nil => by simp [AllT, inorder]
  | .node o l r h => by
    have ihl := allT_iff p l
    have ihr := allT_iff p r
    simp only [AllT, inorder, List.mem_append, List.mem_cons, ihl, ihr]
    constructor
    · rintro ⟨ho, hl, hr⟩ e he
      rcases he with he | he | he
      · exact hl e he
      · exact he ▸ ho
      · exact hr e he
    · intro h
      exact ⟨h o (Or.inr (Or.inl rfl)), fun e he => h e (Or.inl he),
        fun e he => h e (Or.inr (Or.inr he))⟩

lemma ordered_iff_pairwise : ∀ t : NodoAVL, Ordered t ↔ (inorder t).Pairwise lexLt
  | .nil => by simp [Ordered, inorder]
  | .node o l r h => by
    have ihl := ordered_iff_pairwise l
    have ihr := ordered_iff_pairwise r
    simp only [Ordered, inorder, List.pairwise_append, List.pairwise_cons, List.mem_cons,
      allT_iff, ihl, ihr]
    constructor
    · rintro ⟨hl, hr, pl, pr⟩
      refine ⟨pl, ⟨fun b hb => hr b hb, pr⟩, ?_⟩
      rintro a ha b (rfl | hb)
      · exact hl a ha
      · exact lexLt_trans (hl a ha) (hr b hb)
    · rintro ⟨pl, ⟨ho, pr⟩, cruz⟩
      exact ⟨fun a ha => cruz a ha o (Or.inl rfl), ho, pl, pr⟩

/-!  Height bookkeeping. -/

lemma heightOk_nonneg : ∀ t : NodoAVL, HeightOk t → 0 ≤ alturaOpt t
  | .nil, _ => le_refl 0
  | .node o l r h, hOk => by
    simp only [HeightOk] at hOk
    have hl := heightOk_nonneg l hOk.2.1
    have hr := heightOk_nonneg r hOk.2.2
    simp only [alturaOpt_node]
    omega

lemma alturaOpt_eq_real : ∀ t : NodoAVL, HeightOk t → alturaOpt t = alturaReal t
  | .nil, _ => rfl
  | .node o l r h, hOk => by
    simp only [HeightOk] at hOk
    rw [alturaOpt_node, hOk.1, alturaOpt_eq_real l hOk.2.1, alturaOpt_eq_real r hOk.2.2]
    simp only [alturaReal]

lemma balFactorsOk_of : ∀ t : NodoAVL, HeightOk t → Balanceado t → BalFactorsOk t
  | .nil, _, _ => trivial
  | .node o l r h, hOk, hB => by
    simp only [HeightOk] at hOk
    simp only [Balanceado] at hB
    simp only [BalFactorsOk]
    refine ⟨?_, balFactorsOk_of l hOk.2.1 hB.2.2.1, balFactorsOk_of r hOk.2.2 hB.2.2.2⟩
    rw [← alturaOpt_eq_real l hOk.2.1, ← alturaOpt_eq_real r hOk.2.2]
    omega

lemma heightOk_conAltura {o : Obstaculo} {l r : NodoAVL} (h1 : HeightOk l) (h2 : HeightOk r) :
    HeightOk (conAltura o l r) := ⟨rfl, h1, h2⟩

lemma balanceado_conAltura {o : Obstaculo} {l r : NodoAVL} (h1 : Balanceado l)
    (h2 : Balanceado r) (h3 : -1 ≤ alturaOpt l - alturaOpt r)
    (h4 : alturaOpt l - alturaOpt r ≤ 1) : Balanceado (conAltura o l r) := ⟨h3, h4, h1, h2⟩

lemma alturaOpt_conAltura (o : Obstaculo) (l r : NodoAVL) :
    alturaOpt (conAltura o l r) = 1 + max (alturaOpt l) (alturaOpt r) := rfl

/-- Behaviour of balancear on a freshly re-heighted node whose children are
valid AVL trees and whose own imbalance is at most 2: the result is a valid
AVL tree whose height is max or 1 + max of the children's heights, and
exactly 1 + max when no rotation is needed. -/
lemma balancear_spec (o : Obstaculo) (l r : NodoAVL)
    (hOkL : HeightOk l) (hOkR : HeightOk r) (hBL : Balanceado l) (hBR : Balanceado r)
    (hd1 : -2 ≤ alturaOpt l - alturaOpt r) (hd2 : alturaOpt l - alturaOpt r ≤ 2) :
    HeightOk (balancear (conAltura o l r)) ∧ Balanceado (balancear (conAltura o l r)) ∧
    max (alturaOpt l) (alturaOpt r) ≤ alturaOpt (balancear (conAltura o l r)) ∧
    alturaOpt (balancear (conAltura o l r)) ≤ 1 + max (alturaOpt l) (alturaOpt r) ∧
    (-1 ≤ alturaOpt l - alturaOpt r → alturaOpt l - alturaOpt r ≤ 1 →
      alturaOpt (balancear (conAltura o l r)) = 1 + max (alturaOpt l) (alturaOpt r)) := by
  have hl0 := heightOk_nonneg l hOkL
  have hr0 := heightOk_nonneg r hOkR
  simp only [conAltura, balancear, factorBalance_node]
  split_ifs with h1 h2 h3 h4
  · -- simple right rotation
    obtain ⟨hfb, hnl, hfl⟩ := h1
    cases l with
    | nil => simp [esNodo] at hnl
    | node lo ll lr lh =>
      simp only [HeightOk] at hOkL
      simp only [Balanceado] at hBL
      obtain ⟨hlh, hOkll, hOklr⟩ := hOkL
      obtain ⟨hbl1, hbl2, hBll, hBlr⟩ := hBL
      simp only [factorBalance_node, alturaOpt_node, alturaOpt_nil] at hfb hfl hbl1 hbl2 hlh hl0 hr0 hd1 hd2 ⊢
      simp only [rotarDerecha, conAltura]
      refine ⟨heightOk_conAltura hOkll (heightOk_conAltura hOklr hOkR),
        balanceado_conAltura hBll (balanceado_conAltura hBlr hBR ?_ ?_) ?_ ?_,
        ?_, ?_, ?_⟩ <;>
        (try simp only [conAltura, alturaOpt_node, alturaOpt_nil]) <;> omega
  · -- simple left rotation
    obtain ⟨hfb, hnr, hfr⟩ := h2
    cases r with
    | nil => simp [esNodo] at hnr
    | node ro rl rr rh =>
      simp only [HeightOk] at hOkR
      simp only [Balanceado] at hBR
      obtain ⟨hrh, hOkrl, hOkrr⟩ := hOkR
      obtain ⟨hbr1, hbr2, hBrl, hBrr⟩ := hBR
      simp only [factorBalance_node, alturaOpt_node, alturaOpt_nil] at hfb hfr hbr1 hbr2 hrh hl0 hr0 hd1 hd2 ⊢
      simp only [rotarIzquierda, conAltura]
      refine ⟨heightOk_conAltura (heightOk_conAltura hOkL hOkrl) hOkrr,
        balanceado_conAltura (balanceado_conAltura hBL hBrl ?_ ?_) hBrr ?_ ?_,
        ?_, ?_, ?_⟩ <;>
        (try simp only [conAltura, alturaOpt_node, alturaOpt_nil]) <;> omega
  · -- double left-right rotation
    obtain ⟨hfb, hnl, hfl⟩ := h3
    cases l with
    | nil => simp [esNodo] at hnl
    | node lo ll lr lh =>
      simp only [HeightOk] at hOkL
      simp only [Balanceado] at hBL
      obtain ⟨hlh, hOkll, hOklr⟩ := hOkL
      obtain ⟨hbl1, hbl2, hBll, hBlr⟩ := hBL
      have hll0 := heightOk_nonneg ll hOkll
      cases lr with
      | nil =>
        exfalso
        simp only [factorBalance_node, alturaOpt_node, alturaOpt_nil] at hfl
        omega
      | node co cl cr ch =>
        simp only [HeightOk] at hOklr
        simp only [Balanceado] at hOklr hBlr
        obtain ⟨hch, hOkcl, hOkcr⟩ := hOklr
        obtain ⟨hbc1, hbc2, hBcl, hBcr⟩ := hBlr
        simp only [factorBalance_node, alturaOpt_node, alturaOpt_nil] at hfb hfl hbl1 hbl2 hbc1 hbc2 hlh hch hll0 hl0 hr0 hd1 hd2 ⊢
        simp only [rotarIzquierda, conAltura, rotarDerecha]
        refine ⟨heightOk_conAltura (heightOk_conAltura hOkll hOkcl)
            (heightOk_conAltura hOkcr hOkR),
          balanceado_conAltura (balanceado_conAltura hBll hBcl ?_ ?_)
            (balanceado_conAltura hBcr hBR ?_ ?_) ?_ ?_,
          ?_, ?_, ?_⟩ <;>
          (try simp only [conAltura, alturaOpt_node, alturaOpt_nil]) <;> omega
  · -- double right-left rotation
    obtain ⟨hfb, hnr, hfr⟩ := h4
    cases r with
    | nil => simp [esNodo] at hnr
    | node ro rl rr rh =>
      simp only [HeightOk] at hOkR
      simp only [Balanceado] at hBR
      obtain ⟨hrh, hOkrl, hOkrr⟩ := hOkR
      obtain ⟨hbr1, hbr2, hBrl, hBrr⟩ := hBR
      have hrr0 := heightOk_nonneg rr hOkrr
      cases rl with
      | nil =>
        exfalso
        simp only [factorBalance_node, alturaOpt_node, alturaOpt_nil] at hfr
        omega
      | node co cl cr ch =>
        simp only [HeightOk] at hOkrl
        simp only [Balanceado] at hBrl
        obtain ⟨hch, hOkcl, hOkcr⟩ := hOkrl
        obtain ⟨hbc1, hbc2, hBcl, hBcr⟩ := hBrl
        simp only [factorBalance_node, alturaOpt_node, alturaOpt_nil] at hfb hfr hbr1 hbr2 hbc1 hbc2 hrh hch hrr0 hl0 hr0 hd1 hd2 ⊢
        simp only [rotarDerecha, conAltura, rotarIzquierda]
        refine ⟨heightOk_conAltura (heightOk_conAltura hOkL hOkcl)
            (heightOk_conAltura hOkcr hOkrr),
          balanceado_conAltura (balanceado_conAltura hBL hBcl ?_ ?_)
            (balanceado_conAltura hBcr hBrr ?_ ?_) ?_ ?_,
          ?_, ?_, ?_⟩ <;>
          (try simp only [conAltura, alturaOpt_node, alturaOpt_nil]) <;> omega
  · -- no rotation
    have hbal : -1 ≤ alturaOpt l - alturaOpt r ∧ alturaOpt l - alturaOpt r ≤ 1 := by
      constructor
      · by_contra hc
        push_neg at hc
        cases r with
        | nil => simp only [alturaOpt_node, alturaOpt_nil] at hc; omega
        | node ro rl rr rh =>
          rcases le_or_lt (factorBalance (NodoAVL.node ro rl rr rh)) 0 with hf | hf
          · exact h2 ⟨by simp only [alturaOpt_node, alturaOpt_nil] at hc ⊢; omega, rfl, hf⟩
          · exact h4 ⟨by simp only [alturaOpt_node, alturaOpt_nil] at hc ⊢; omega, rfl, hf⟩
      · by_contra hc
        push_neg at hc
        cases l with
        | nil => simp only [alturaOpt_node, alturaOpt_nil] at hc; omega
        | node lo ll lr lh =>
          rcases le_or_lt 0 (factorBalance (NodoAVL.node lo ll lr lh)) with hf | hf
          · exact h1 ⟨by simp only [alturaOpt_node, alturaOpt_nil] at hc ⊢; omega, rfl, hf⟩
          · exact h3 ⟨by simp only [alturaOpt_node, alturaOpt_nil] at hc ⊢; omega, rfl, hf⟩
    refine ⟨⟨rfl, hOkL, hOkR⟩, ⟨hbal.1, hbal.2, hBL, hBR⟩, ?_, le_refl _, fun _ _ => rfl⟩
    exact le_add_of_nonneg_left (by norm_num)

/-- Recursive insertion keeps the altura bookkeeping and the AVL balance,
and grows the height by at most one. -/
lemma insertarRec_hb : ∀ (t : NodoAVL) (o : Obstaculo), HeightOk t → Balanceado t →
    HeightOk (insertarRec t o) ∧ Balanceado (insertarRec t o) ∧
    alturaOpt t ≤ alturaOpt (insertarRec t o) ∧
    alturaOpt (insertarRec t o) ≤ alturaOpt t + 1
  | .nil, o, _, _ => by
    simp only [insertarRec]
    refine ⟨⟨?_, trivial, trivial⟩, ⟨?_, ?_, trivial, trivial⟩, ?_, ?_⟩ <;>
      norm_num [alturaOpt_node, alturaOpt_nil]
  | .node no l r h, o, hOk, hB => by
    simp only [HeightOk] at hOk
    simp only [Balanceado] at hB
    obtain ⟨hh, hOkL, hOkR⟩ := hOk
    obtain ⟨hb1, hb2, hBL, hBR⟩ := hB
    simp only [insertarRec]
    split_ifs with hcmp
    · obtain ⟨ihOk, ihB, ihLo, ihHi⟩ := insertarRec_hb l o hOkL hBL
      obtain ⟨sOk, sB, sLo, sHi, sEq⟩ :=
        balancear_spec no (insertarRec l o) r ihOk hOkR ihB hBR (by omega) (by omega)
      refine ⟨sOk, sB, ?_, ?_⟩ <;> simp only [alturaOpt_node] <;> omega
    · obtain ⟨ihOk, ihB, ihLo, ihHi⟩ := insertarRec_hb r o hOkR hBR
      obtain ⟨sOk, sB, sLo, sHi, sEq⟩ :=
        balancear_spec no l (insertarRec r o) hOkL ihOk hBL ihB (by omega) (by omega)
      refine ⟨sOk, sB, ?_, ?_⟩ <;> simp only [alturaOpt_node] <;> omega

/-- Recursive deletion keeps the altura bookkeeping and the AVL balance,
and shrinks the height by at most one. -/
lemma eliminarRec_hb : ∀ (t : NodoAVL) (o : Obstaculo), HeightOk t → Balanceado t →
    HeightOk (eliminarRec t o) ∧ Balanceado (eliminarRec t o) ∧
    alturaOpt t - 1 ≤ alturaOpt (eliminarRec t o) ∧
    alturaOpt (eliminarRec t o) ≤ alturaOpt t
  | .nil, o, _, _ => by
    simp only [eliminarRec]
    exact ⟨trivial, trivial, by norm_num [alturaOpt_nil], by norm_num [alturaOpt_nil]⟩
  | .node no l r h, o, hOk, hB => by
    simp only [HeightOk] at hOk
    simp only [Balanceado] at hB
    obtain ⟨hh, hOkL, hOkR⟩ := hOk
    obtain ⟨hb1, hb2, hBL, hBR⟩ := hB
    have hl0 := heightOk_nonneg l hOkL
    have hr0 := heightOk_nonneg r hOkR
    rw [eliminarRec.eq_def]
    simp only []
    split_ifs with heq hcmp
    · cases l with
      | nil =>
        cases r with
        | nil =>
          refine ⟨trivial, trivial, ?_, ?_⟩ <;>
            simp only [alturaOpt_node, alturaOpt_nil] at * <;> omega
        | node ro rl rr rh =>
          refine ⟨hOkR, hBR, ?_, ?_⟩ <;>
            simp only [alturaOpt_node, alturaOpt_nil] at * <;> omega
      | node lo ll lr lh =>
        cases r with
        | nil =>
          refine ⟨hOkL, hBL, ?_, ?_⟩ <;>
            simp only [alturaOpt_node, alturaOpt_nil] at * <;> omega
        | node ro rl rr rh =>
          obtain ⟨ihOk, ihB, ihLo, ihHi⟩ :=
            eliminarRec_hb (.node ro rl rr rh) (encontrarMinimo ro rl) hOkR hBR
          obtain ⟨sOk, sB, sLo, sHi, sEq⟩ :=
            balancear_spec (encontrarMinimo ro rl) (.node lo ll lr lh)
              (eliminarRec (.node ro rl rr rh) (encontrarMinimo ro rl)) hOkL ihOk hBL ihB
              (by simp only [alturaOpt_node] at *; omega)
              (by simp only [alturaOpt_node] at *; omega)
          refine ⟨sOk, sB, ?_, ?_⟩ <;> simp only [alturaOpt_node] at * <;> omega
    · obtain ⟨ihOk, ihB, ihLo, ihHi⟩ := eliminarRec_hb l o hOkL hBL
      obtain ⟨sOk, sB, sLo, sHi, sEq⟩ :=
        balancear_spec no (eliminarRec l o) r ihOk hOkR ihB hBR (by omega) (by omega)
      refine ⟨sOk, sB, ?_, ?_⟩ <;> simp only [alturaOpt_node] <;> omega
    · obtain ⟨ihOk, ihB, ihLo, ihHi⟩ := eliminarRec_hb r o hOkR hBR
      obtain ⟨sOk, sB, sLo, sHi, sEq⟩ :=
        balancear_spec no l (eliminarRec r o) hOkL ihOk hBL ihB (by omega) (by omega)
      refine ⟨sOk, sB, ?_, ?_⟩ <;> simp only [alturaOpt_node] <;> omega

lemma esMayorQue_eq_false_iff {a b : Obstaculo} : esMayorQue a b = false ↔ ¬ lexLt b a := by
  rw [← Bool.not_eq_true, esMayorQue_eq_true_iff]

lemma esIgualA_eq_false_iff {a b : Obstaculo} : esIgualA a b = false ↔ ¬ ClaveEq a b := by
  rw [← Bool.not_eq_true, esIgualA_eq_true_iff]

/-!  The sorted-position insertion realised by the recursive insert. -/

lemma insertarOrdenado_append_left (o no : Obstaculo) (hno : esMayorQue no o = true) :
    ∀ (A B : List Obstaculo),
      insertarOrdenado o (A ++ no :: B) = insertarOrdenado o A ++ no :: B
  | [], B => by simp [insertarOrdenado, hno]
  | x :: A, B => by
    simp only [List.cons_append, insertarOrdenado]
    split_ifs with hx
    · simp
    · simp [insertarOrdenado_append_left o no hno A B]

lemma insertarOrdenado_append_right (o : Obstaculo) :
    ∀ (A B : List Obstaculo), (∀ x ∈ A, esMayorQue x o = false) →
      insertarOrdenado o (A ++ B) = A ++ insertarOrdenado o B
  | [], B, _ => by simp
  | x :: A, B, hA => by
    have hx := hA x (List.mem_cons_self x A)
    simp only [List.cons_append, insertarOrdenado, hx]
    simp [insertarOrdenado_append_right o A B fun y hy => hA y (List.mem_cons_of_mem x hy)]

lemma mem_insertarOrdenado {o e : Obstaculo} : ∀ {L : List Obstaculo},
    e ∈ insertarOrdenado o L ↔ e = o ∨ e ∈ L
  | [] => by simp [insertarOrdenado]
  | x :: L => by
    simp only [insertarOrdenado]
    split_ifs with hx
    · simp [or_assoc]
    · simp only [List.mem_cons, mem_insertarOrdenado (L := L)]
      tauto

lemma length_insertarOrdenado (o : Obstaculo) : ∀ (L : List Obstaculo),
    (insertarOrdenado o L).length = L.length + 1
  | [] => rfl
  | x :: L => by
    simp only [insertarOrdenado]
    split_ifs with hx
    · simp
    · simp [length_insertarOrdenado o L]

lemma pairwise_insertarOrdenado {o : Obstaculo} : ∀ {L : List Obstaculo},
    L.Pairwise lexLt → (∀ x ∈ L, ¬ ClaveEq x o) → (insertarOrdenado o L).Pairwise lexLt
  | [], _, _ => by simp [insertarOrdenado]
  | x :: L, hp, hk => by
    rw [List.pairwise_cons] at hp
    simp only [insertarOrdenado]
    split_ifs with hx
    · rw [esMayorQue_eq_true_iff] at hx
      refine List.Pairwise.cons ?_ (List.Pairwise.cons hp.1 hp.2)
      intro b hb
      rcases List.mem_cons.mp hb with rfl | hb
      · exact hx
      · exact lexLt_trans hx (hp.1 b hb)
    · rw [esMayorQue_eq_true_iff] at hx
      have hxo : lexLt x o :=
        lexLt_total hx fun hc => hk x (List.mem_cons_self x L) (claveEq_symm hc)
      refine List.Pairwise.cons ?_
        (pairwise_insertarOrdenado hp.2 fun y hy => hk y (List.mem_cons_of_mem x hy))
      intro b hb
      rcases mem_insertarOrdenado.mp hb with rfl | hb
      · exact hxo
      · exact hp.1 b hb

/-!  Removal of a key from a listing. -/

lemma eliminarClave_sublist (o : Obstaculo) : ∀ L : List Obstaculo,
    (eliminarClave o L).Sublist L
  | [] => List.Sublist.refl []
  | x :: L => by
    simp only [eliminarClave]
    split_ifs with hx
    · exact List.sublist_cons_self x L
    · exact List.Sublist.cons₂ x (eliminarClave_sublist o L)

lemma eliminarClave_no_match (o : Obstaculo) : ∀ L : List Obstaculo,
    (∀ x ∈ L, esIgualA x o = false) → eliminarClave o L = L
  | [], _ => rfl
  | x :: L, hL => by
    simp only [eliminarClave, hL x (List.mem_cons_self x L)]
    simp [eliminarClave_no_match o L fun y hy => hL y (List.mem_cons_of_mem x hy)]

lemma eliminarClave_append_right (o : Obstaculo) : ∀ (A B : List Obstaculo),
    (∀ x ∈ A, esIgualA x o = false) →
      eliminarClave o (A ++ B) = A ++ eliminarClave o B
  | [], B, _ => rfl
  | x :: A, B, hA => by
    simp only [List.cons_append, eliminarClave, hA x (List.mem_cons_self x A)]
    simp [eliminarClave_append_right o A B fun y hy => hA y (List.mem_cons_of_mem x hy)]

lemma length_eliminarClave (o : Obstaculo) : ∀ L : List Obstaculo,
    (∃ x ∈ L, ClaveEq x o) → (eliminarClave o L).length + 1 = L.length
  | [], hL => by simp at hL
  | x :: L, hL => by
    simp only [eliminarClave]
    split_ifs with hx
    · simp
    · rw [esIgualA_eq_true_iff] at hx
      have : ∃ y ∈ L, ClaveEq y o := by
        obtain ⟨y, hy, hk⟩ := hL
        rcases List.mem_cons.mp hy with rfl | hy
        · exact absurd hk hx
        · exact ⟨y, hy, hk⟩
      simp [← length_eliminarClave o L this]

lemma eliminarClave_insertarOrdenado (o : Obstaculo) : ∀ L : List Obstaculo,
    (∀ x ∈ L, ¬ ClaveEq x o) → eliminarClave o (insertarOrdenado o L) = L
  | [], _ => by simp [insertarOrdenado, eliminarClave, esIgualA_eq_true_iff, claveEq_refl]
  | x :: L, hL => by
    simp only [insertarOrdenado]
    split_ifs with hx
    · simp [eliminarClave, esIgualA_eq_true_iff, claveEq_refl]
    · have hxo : esIgualA x o = false :=
        esIgualA_eq_false_iff.mpr (hL x (List.mem_cons_self x L))
      simp only [eliminarClave, hxo]
      simp [eliminarClave_insertarOrdenado o L fun y hy => hL y (List.mem_cons_of_mem x hy)]

/-!  In-order characterisation of insertion, deletion and search. -/

lemma inorder_insertarRec : ∀ (t : NodoAVL) (o : Obstaculo), Ordered t →
    inorder (insertarRec t o) = insertarOrdenado o (inorder t)
  | .nil, o, _ => by simp [insertarRec, inorder, insertarOrdenado]
  | .node no l r h, o, hord => by
    simp only [Ordered] at hord
    obtain ⟨hallL, hallR, hordL, hordR⟩ := hord
    simp only [insertarRec]
    split_ifs with hcmp
    · rw [inorder_balancear, inorder_conAltura, inorder_insertarRec l o hordL]
      simp only [inorder]
      exact (insertarOrdenado_append_left o no hcmp (inorder l) (inorder r)).symm
    · rw [inorder_balancear, inorder_conAltura, inorder_insertarRec r o hordR]
      simp only [inorder]
      have hnoLt : ¬ lexLt o no := by rw [← esMayorQue_eq_true_iff]; exact hcmp
      have hA : ∀ y ∈ inorder l ++ [no], esMayorQue y o = false := by
        intro y hy
        rw [esMayorQue_eq_false_iff]
        rcases List.mem_append.mp hy with hy | hy
        · have hyno : lexLt y no := (allT_iff _ l).mp hallL y hy
          exact fun hoy => hnoLt (lexLt_trans hoy hyno)
        · rw [List.mem_singleton.mp hy]
          exact hnoLt
      have := insertarOrdenado_append_right o (inorder l ++ [no]) (inorder r) hA
      simp only [List.append_assoc, List.singleton_append] at this
      rw [this]

/-- The first element of the in-order listing of a node is what the
while loop of _encontrar_minimo returns. -/
lemma inorder_min_cons : ∀ (l : NodoAVL) (o : Obstaculo) (B : List Obstaculo),
    ∃ rest, inorder l ++ o :: B = encontrarMinimo o l :: rest
  | .nil, o, B => ⟨B, rfl⟩
  | .node o' l' r' h', o, B => by
    obtain ⟨rest, hrest⟩ := inorder_min_cons l' o' (inorder r' ++ o :: B)
    refine ⟨rest, ?_⟩
    show (inorder l' ++ o' :: inorder r') ++ o :: B = encontrarMinimo o' l' :: rest
    rw [← hrest]
    simp

lemma eliminarClave_append_left (o : Obstaculo) : ∀ (A B : List Obstaculo),
    (∀ x ∈ B, esIgualA x o = false) → eliminarClave o (A ++ B) = eliminarClave o A ++ B
  | [], B, hB => by simp [eliminarClave, eliminarClave_no_match o B hB]
  | x :: A, B, hB => by
    simp only [List.cons_append, eliminarClave]
    split_ifs with hx
    · rfl
    · simp [eliminarClave_append_left o A B hB]

lemma inorder_eliminarRec : ∀ (t : NodoAVL) (o : Obstaculo), Ordered t →
    inorder (eliminarRec t o) = eliminarClave o (inorder t)
  | .nil, o, _ => by simp [eliminarRec, inorder, eliminarClave]
  | .node no l r h, o, hord => by
    simp only [Ordered] at hord
    obtain ⟨hallL, hallR, hordL, hordR⟩ := hord
    rw [eliminarRec.eq_def]
    simp only []
    split_ifs with heq hcmp
    · -- found the key at this node
      rw [esIgualA_eq_true_iff] at heq
      have hAleft : ∀ x ∈ inorder l, esIgualA x o = false := by
        intro x hx
        rw [esIgualA_eq_false_iff]
        have := (allT_iff _ l).mp hallL x hx
        exact lexLt_not_claveEq (lexLt_of_lexLt_claveEq this heq)
      cases l with
      | nil =>
        cases r with
        | nil => simp [inorder, eliminarClave, esIgualA_eq_true_iff.mpr heq]
        | node ro rl rr rh =>
          simp [inorder, eliminarClave, esIgualA_eq_true_iff.mpr heq]
      | node lo ll lr lh =>
        cases r with
        | nil =>
          rw [show inorder (NodoAVL.node no (NodoAVL.node lo ll lr lh) NodoAVL.nil h)
              = inorder (NodoAVL.node lo ll lr lh) ++ [no] from by simp [inorder]]
          rw [eliminarClave_append_right o _ _ hAleft]
          simp [eliminarClave, esIgualA_eq_true_iff.mpr heq]
        | node ro rl rr rh =>
          simp only []
          rw [inorder_balancear, inorder_conAltura,
            inorder_eliminarRec (.node ro rl rr rh) (encontrarMinimo ro rl) hordR]
          obtain ⟨rest, hrest⟩ := inorder_min_cons rl ro (inorder rr)
          have hR : inorder (NodoAVL.node ro rl rr rh) = encontrarMinimo ro rl :: rest := by
            show inorder rl ++ ro :: inorder rr = encontrarMinimo ro rl :: rest
            exact hrest
          rw [show inorder (NodoAVL.node no (NodoAVL.node lo ll lr lh)
                (NodoAVL.node ro rl rr rh) h)
              = inorder (NodoAVL.node lo ll lr lh) ++ no
                :: inorder (NodoAVL.node ro rl rr rh) from rfl]
          rw [hR, eliminarClave_append_right o _ _ hAleft]
          simp [eliminarClave, esIgualA_eq_true_iff.mpr heq,
            esIgualA_eq_true_iff.mpr (claveEq_refl (encontrarMinimo ro rl))]
    · -- the key is smaller, recurse into the left subtree
      rw [esMayorQue_eq_true_iff] at hcmp
      have hBright : ∀ x ∈ no :: inorder r, esIgualA x o = false := by
        intro x hx
        rw [esIgualA_eq_false_iff]
        rcases List.mem_cons.mp hx with rfl | hx
        · exact fun hc => lexLt_not_claveEq hcmp (claveEq_symm hc)
        · have := (allT_iff _ r).mp hallR x hx
          exact fun hc =>
            lexLt_not_claveEq (lexLt_trans hcmp this) (claveEq_symm hc)
      rw [inorder_balancear, inorder_conAltura, inorder_eliminarRec l o hordL]
      rw [show inorder (NodoAVL.node no l r h) = inorder l ++ no :: inorder r from rfl]
      rw [eliminarClave_append_left o (inorder l) (no :: inorder r) hBright]
    · -- the key is larger, recurse into the right subtree
      have hnoLt : ¬ lexLt o no := by rw [← esMayorQue_eq_true_iff]; exact hcmp
      rw [esIgualA_eq_true_iff] at heq
      have hno_o : lexLt no o := lexLt_total hnoLt fun hc => heq (claveEq_symm hc)
      have hAleft : ∀ x ∈ inorder l ++ [no], esIgualA x o = false := by
        intro x hx
        rw [esIgualA_eq_false_iff]
        rcases List.mem_append.mp hx with hx | hx
        · have hxno := (allT_iff _ l).mp hallL x hx
          exact lexLt_not_claveEq (lexLt_trans hxno hno_o)
        · rw [List.mem_singleton.mp hx]
          exact heq
      rw [inorder_balancear, inorder_conAltura, inorder_eliminarRec r o hordR]
      rw [show inorder (NodoAVL.node no l r h) = inorder l ++ no :: inorder r from rfl]
      have := eliminarClave_append_right o (inorder l ++ [no]) (inorder r) hAleft
      simp only [List.append_assoc, List.singleton_append] at this
      rw [this]

lemma ordered_insertarRec (t : NodoAVL) (o : Obstaculo) (hord : Ordered t)
    (habs : ¬ ContainsKey t o) : Ordered (insertarRec t o) := by
  rw [ordered_iff_pairwise, inorder_insertarRec t o hord]
  exact pairwise_insertarOrdenado ((ordered_iff_pairwise t).mp hord)
    fun x hx hc => habs ⟨x, hx, hc⟩

lemma ordered_eliminarRec (t : NodoAVL) (o : Obstaculo) (hord : Ordered t) :
    Ordered (eliminarRec t o) := by
  rw [ordered_iff_pairwise, inorder_eliminarRec t o hord]
  exact List.Pairwise.sublist (eliminarClave_sublist o (inorder t))
    ((ordered_iff_pairwise t).mp hord)

lemma buscarObstaculo_correct : ∀ (t : NodoAVL) (o : Obstaculo), Ordered t →
    ((buscarObstaculo t o).isSome = true ↔ ContainsKey t o)
  | .nil, o, _ => by simp [buscarObstaculo, ContainsKey, inorder]
  | .node no l r h, o, hord => by
    simp only [Ordered] at hord
    obtain ⟨hallL, hallR, hordL, hordR⟩ := hord
    simp only [buscarObstaculo]
    split_ifs with heq hcmp
    · rw [esIgualA_eq_true_iff] at heq
      refine ⟨fun _ => ⟨no, ?_, heq⟩, fun _ => rfl⟩
      show no ∈ inorder l ++ no :: inorder r
      simp
    · rw [esIgualA_eq_true_iff] at heq
      rw [esMayorQue_eq_true_iff] at hcmp
      rw [buscarObstaculo_correct l o hordL]
      unfold ContainsKey
      constructor
      · rintro ⟨e, he, hk⟩
        refine ⟨e, ?_, hk⟩
        show e ∈ inorder l ++ no :: inorder r
        exact List.mem_append.mpr (Or.inl he)
      · rintro ⟨e, he, hk⟩
        rw [show inorder (NodoAVL.node no l r h) = inorder l ++ no :: inorder r from rfl]
          at he
        rcases List.mem_append.mp he with he | he
        · exact ⟨e, he, hk⟩
        · rcases List.mem_cons.mp he with rfl | he
          · exact absurd hk heq
          · exfalso
            have := (allT_iff _ r).mp hallR e he
            exact lexLt_not_claveEq (lexLt_trans hcmp this) (claveEq_symm hk)
    · have hnoLt : ¬ lexLt o no := by rw [← esMayorQue_eq_true_iff]; exact hcmp
      rw [esIgualA_eq_true_iff] at heq
      have hno_o : lexLt no o := lexLt_total hnoLt fun hc => heq (claveEq_symm hc)
      rw [buscarObstaculo_correct r o hordR]
      unfold ContainsKey
      constructor
      · rintro ⟨e, he, hk⟩
        refine ⟨e, ?_, hk⟩
        show e ∈ inorder l ++ no :: inorder r
        exact List.mem_append.mpr (Or.inr (List.mem_cons_of_mem no he))
      · rintro ⟨e, he, hk⟩
        rw [show inorder (NodoAVL.node no l r h) = inorder l ++ no :: inorder r from rfl]
          at he
        rcases List.mem_append.mp he with he | he
        · exfalso
          have hlt := (allT_iff _ l).mp hallL e he
          exact lexLt_not_claveEq (lexLt_trans hlt hno_o) hk
        · rcases List.mem_cons.mp he with rfl | he
          · exact absurd hk heq
          · exact ⟨e, he, hk⟩

/-!  The global invariant of every reachable ArbolAVL state. -/

/-- Order, height bookkeeping, balance, and the counter matching the
number of stored obstacles. -/
def InvAVL (a : ArbolAVL) : Prop :=
  Ordered a.raiz ∧ HeightOk a.raiz ∧ Balanceado a.raiz ∧
    a.total_obstaculos = ((inorder a.raiz).length : Int)

lemma inv_arbolVacio : InvAVL arbolVacio := ⟨trivial, trivial, trivial, rfl⟩

lemma insertar_spec (a : ArbolAVL) (o : Obstaculo) (ha : InvAVL a) :
    InvAVL (insertar a o).2 ∧
    ((insertar a o).1 = true ↔ ¬ ContainsKey a.raiz o) ∧
    ((insertar a o).1 = true →
      inorder (insertar a o).2.raiz = insertarOrdenado o (inorder a.raiz) ∧
      (insertar a o).2.total_obstaculos = a.total_obstaculos + 1) ∧
    ((insertar a o).1 = false → (insertar a o).2 = a) := by
  obtain ⟨hord, hOk, hB, htot⟩ := ha
  rcases a with ⟨raiz, total⟩
  simp only [] at hord hOk hB htot
  cases raiz with
  | nil =>
    simp only [insertar]
    refine ⟨⟨?_, ?_, ?_, ?_⟩, ?_, ?_, ?_⟩
    · exact ⟨trivial, trivial, trivial, trivial⟩
    · exact ⟨by norm_num [alturaOpt_nil], trivial, trivial⟩
    · exact ⟨by norm_num [alturaOpt_nil], by norm_num [alturaOpt_nil], trivial, trivial⟩
    · show total + 1 = ((inorder (NodoAVL.node o .nil .nil 1)).length : Int)
      simp only [inorder] at htot ⊢
      simp at htot
      simp [htot]
    · simp [ContainsKey, inorder]
    · exact fun _ => ⟨rfl, trivial⟩
    · intro hc
      simp at hc
  | node ro rl rr rh =>
    simp only [insertar]
    split_ifs with hs
    · have hc : ContainsKey (NodoAVL.node ro rl rr rh) o :=
        (buscarObstaculo_correct _ o hord).mp hs
      refine ⟨⟨hord, hOk, hB, htot⟩, ?_, ?_, fun _ => by simp⟩
      · simp [hc]
      · intro hc1
        simp at hc1
    · have habs : ¬ ContainsKey (NodoAVL.node ro rl rr rh) o :=
        fun hC => hs ((buscarObstaculo_correct _ o hord).mpr hC)
      obtain ⟨ihOk, ihB, -, -⟩ := insertarRec_hb (.node ro rl rr rh) o hOk hB
      refine ⟨⟨ordered_insertarRec _ o hord habs, ihOk, ihB, ?_⟩, ?_, ?_, ?_⟩
      · show total + 1 = ((inorder (insertarRec (NodoAVL.node ro rl rr rh) o)).length : Int)
        rw [inorder_insertarRec _ o hord, length_insertarOrdenado]
        rw [htot]
        push_cast
        ring
      · simp [habs]
      · exact fun _ => ⟨inorder_insertarRec _ o hord, by simp⟩
      · intro hc
        simp at hc

lemma eliminar_spec (a : ArbolAVL) (o : Obstaculo) (ha : InvAVL a) :
    InvAVL (eliminar a o).2 ∧
    ((eliminar a o).1 = true ↔ ContainsKey a.raiz o) ∧
    ((eliminar a o).1 = true →
      inorder (eliminar a o).2.raiz = eliminarClave o (inorder a.raiz) ∧
      (eliminar a o).2.total_obstaculos = a.total_obstaculos - 1) ∧
    ((eliminar a o).1 = false → (eliminar a o).2 = a) := by
  obtain ⟨hord, hOk, hB, htot⟩ := ha
  rcases a with ⟨raiz, total⟩
  simp only [] at hord hOk hB htot
  cases raiz with
  | nil =>
    simp only [eliminar]
    refine ⟨⟨trivial, trivial, trivial, htot⟩, ?_, ?_, fun _ => by simp⟩
    · simp [ContainsKey, inorder]
    · intro hc
      simp at hc
  | node ro rl rr rh =>
    simp only [eliminar]
    split_ifs with hs
    · have habs : ¬ ContainsKey (NodoAVL.node ro rl rr rh) o := by
        intro hC
        rw [(buscarObstaculo_correct _ o hord).mpr hC] at hs
        cases hs
      refine ⟨⟨hord, hOk, hB, htot⟩, ?_, ?_, fun _ => by simp⟩
      · simp [habs]
      · intro hc1
        simp at hc1
    · have hs1 : (buscarObstaculo (NodoAVL.node ro rl rr rh) o).isSome = true := by
        cases hb : (buscarObstaculo (NodoAVL.node ro rl rr rh) o).isSome with
        | false => exact absurd hb hs
        | true => rfl
      have hc : ContainsKey (NodoAVL.node ro rl rr rh) o :=
        (buscarObstaculo_correct _ o hord).mp hs1
      obtain ⟨ihOk, ihB, -, -⟩ := eliminarRec_hb (.node ro rl rr rh) o hOk hB
      refine ⟨⟨ordered_eliminarRec _ o hord, ihOk, ihB, ?_⟩, ?_, ?_, ?_⟩
      · show total - 1 = ((inorder (eliminarRec (NodoAVL.node ro rl rr rh) o)).length : Int)
        rw [inorder_eliminarRec _ o hord]
        have hlen := length_eliminarClave o (inorder (NodoAVL.node ro rl rr rh)) hc
        rw [htot]
        omega
      · simp [hc]
      · exact fun _ => ⟨inorder_eliminarRec _ o hord, by simp⟩
      · intro hc1
        simp at hc1

/-- Running any sequence of calls keeps the invariant, and the counter
moves by successful inserts minus successful deletes. -/
lemma ejecutar_spec : ∀ (ops : List Op) (a : ArbolAVL), InvAVL a →
    InvAVL (ejecutar a ops).1 ∧
    (ejecutar a ops).1.total_obstaculos
      = a.total_obstaculos + ((ejecutar a ops).2.1 : Int) - ((ejecutar a ops).2.2 : Int)
  | [], a, ha => ⟨ha, by simp [ejecutar]⟩
  | Op.ins o :: resto, a, ha => by
    obtain ⟨hi, ht⟩ := ejecutar_spec resto (insertar a o).2 (insertar_spec a o ha).1
    have hstep : (insertar a o).2.total_obstaculos
        = a.total_obstaculos + (if (insertar a o).1 = true then 1 else 0) := by
      rcases hb : (insertar a o).1
      · rw [((insertar_spec a o ha).2.2.2) hb]
        simp
      · rw [(((insertar_spec a o ha).2.2.1) hb).2]
        simp
    simp only [ejecutar]
    refine ⟨hi, ?_⟩
    rw [ht, hstep]
    rcases hb : (insertar a o).1 <;> (simp [hb]; try omega)
  | Op.del o :: resto, a, ha => by
    obtain ⟨hi, ht⟩ := ejecutar_spec resto (eliminar a o).2 (eliminar_spec a o ha).1
    have hstep : (eliminar a o).2.total_obstaculos
        = a.total_obstaculos - (if (eliminar a o).1 = true then 1 else 0) := by
      rcases hb : (eliminar a o).1
      · rw [((eliminar_spec a o ha).2.2.2) hb]
        simp
      · rw [(((eliminar_spec a o ha).2.2.1) hb).2]
        simp
    simp only [ejecutar]
    refine ⟨hi, ?_⟩
    rw [ht, hstep]
    rcases hb : (eliminar a o).1 <;> (simp [hb]; try omega)

lemma inv_runOps (ops : List Op) : InvAVL (runOps ops) :=
  (ejecutar_spec ops arbolVacio inv_arbolVacio).1

/-!  Range query. -/

lemma esta_en_rango_eq_true_iff {o : Obstaculo} {xMin xMax yMin yMax : Int} :
    o.esta_en_rango xMin xMax yMin yMax = true ↔
      (xMin ≤ o.x ∧ o.x ≤ xMax) ∧ (yMin ≤ o.y ∧ o.y ≤ yMax) := by
  simp [Obstaculo.esta_en_rango]

set_option maxHeartbeats 2000000 in
lemma mem_buscarRangoRec_node (xMin xMax yMin yMax : Int) (o : Obstaculo)
    (l r : NodoAVL) (h : Int)
    (hallL : AllT (fun e => lexLt e o) l) (hallR : AllT (fun e => lexLt o e) r)
    (ihl : ∀ (acc : List Obstaculo) (e : Obstaculo),
      e ∈ buscarRangoRec l xMin xMax yMin yMax acc ↔
        e ∈ acc ∨ (e ∈ inorder l ∧ e.esta_en_rango xMin xMax yMin yMax = true))
    (ihr : ∀ (acc : List Obstaculo) (e : Obstaculo),
      e ∈ buscarRangoRec r xMin xMax yMin yMax acc ↔
        e ∈ acc ∨ (e ∈ inorder r ∧ e.esta_en_rango xMin xMax yMin yMax = true))
    (acc : List Obstaculo) (e : Obstaculo) :
    e ∈ buscarRangoRec (.node o l r h) xMin xMax yMin yMax acc ↔
      e ∈ acc ∨ (e ∈ inorder (.node o l r h) ∧
        e.esta_en_rango xMin xMax yMin yMax = true) := by
  have memT : ∀ x : Obstaculo,
      x ∈ inorder (NodoAVL.node o l r h) ↔ x ∈ inorder l ∨ x = o ∨ x ∈ inorder r := by
    intro x
    rw [show inorder (NodoAVL.node o l r h) = inorder l ++ o :: inorder r from rfl]
    simp
  have hAe : ¬ (o.x ≥ xMin) → e ∈ inorder l →
      ¬ (e.esta_en_rango xMin xMax yMin yMax = true) := by
    intro hx he hr
    have hlt := (allT_iff _ l).mp hallL e he
    rw [esta_en_rango_eq_true_iff] at hr
    unfold lexLt at hlt
    omega
  have hBe : ¬ (o.x ≤ xMax) → e ∈ inorder r →
      ¬ (e.esta_en_rango xMin xMax yMin yMax = true) := by
    intro hx he hr
    have hlt := (allT_iff _ r).mp hallR e he
    rw [esta_en_rango_eq_true_iff] at hr
    unfold lexLt at hlt
    omega
  have hOe1 : e = o → o.esta_en_rango xMin xMax yMin yMax = true →
      e.esta_en_rango xMin xMax yMin yMax = true := by
    intro he hr
    rw [he]
    exact hr
  have hOe2 : e = o → e.esta_en_rango xMin xMax yMin yMax = true →
      o.esta_en_rango xMin xMax yMin yMax = true := by
    intro he hr
    rw [← he]
    exact hr
  simp only [buscarRangoRec]
  split_ifs with h1 h2 h3 h4 h5 h6 h7 <;>
    simp only [ihr, ihl, memT, List.mem_append, List.mem_singleton] <;>
    tauto

lemma mem_buscarRangoRec (xMin xMax yMin yMax : Int) : ∀ (t : NodoAVL), Ordered t →
    ∀ (acc : List Obstaculo) (e : Obstaculo),
      (e ∈ buscarRangoRec t xMin xMax yMin yMax acc ↔
        e ∈ acc ∨ (e ∈ inorder t ∧ e.esta_en_rango xMin xMax yMin yMax = true))
  | .nil, _, acc, e => by simp [buscarRangoRec, inorder]
  | .node o l r h, hord, acc, e => by
    simp only [Ordered] at hord
    exact mem_buscarRangoRec_node xMin xMax yMin yMax o l r h hord.1 hord.2.1
      (mem_buscarRangoRec xMin xMax yMin yMax l hord.2.2.1)
      (mem_buscarRangoRec xMin xMax yMin yMax r hord.2.2.2)
      acc e

/-!  Fueled variants of every recursive procedure and of the BFS loop:
they return none when the fuel runs out, and enough fuel (bounded by the
size of the subtree, or by the decreasing measure of the queue) always
exists, which is the termination argument of the source made explicit. -/

def insertarFuel : Nat → NodoAVL → Obstaculo → Option NodoAVL
  | 0, _, _ => none
  | _ + 1, .nil, o => some (.node o .nil .nil 1)
  | fuel + 1, .node no l r _, o =>
    if esMayorQue no o = true then
      (insertarFuel fuel l o).map fun l' => balancear (conAltura no l' r)
    else
      (insertarFuel fuel r o).map fun r' => balancear (conAltura no l r')

def buscarFuel : Nat → NodoAVL → Obstaculo → Option (Option NodoAVL)
  | 0, _, _ => none
  | _ + 1, .nil, _ => some none
  | fuel + 1, .node no l r h, o =>
    if esIgualA no o = true then some (some (.node no l r h))
    else if esMayorQue no o = true then buscarFuel fuel l o
    else buscarFuel fuel r o

def eliminarFuel : Nat → NodoAVL → Obstaculo → Option NodoAVL
  | 0, _, _ => none
  | _ + 1, .nil, _ => some .nil
  | fuel + 1, .node no l r _, o =>
    if esIgualA no o = true then
      match l, r with
      | .nil, .nil => some .nil
      | .nil, .node ro rl rr rh => some (.node ro rl rr rh)
      | .node lo ll lr lh, .nil => some (.node lo ll lr lh)
      | .node lo ll lr lh, .node ro rl rr rh =>
        (eliminarFuel fuel (.node ro rl rr rh) (encontrarMinimo ro rl)).map fun r' =>
          balancear (conAltura (encontrarMinimo ro rl) (.node lo ll lr lh) r')
    else if esMayorQue no o = true then
      (eliminarFuel fuel l o).map fun l' => balancear (conAltura no l' r)
    else
      (eliminarFuel fuel r o).map fun r' => balancear (conAltura no l r')

def rangoFuel : Nat → NodoAVL → Int → Int → Int → Int → List Obstaculo →
    Option (List Obstaculo)
  | 0, _, _, _, _, _, _ => none
  | _ + 1, .nil, _, _, _, _, res => some res
  | fuel + 1, .node o l r _, xMin, xMax, yMin, yMax, res =>
    let res1 := if o.esta_en_rango xMin xMax yMin yMax = true then res ++ [o] else res
    match (if o.x ≥ xMin then rangoFuel fuel l xMin xMax yMin yMax res1 else some res1) with
    | none => none
    | some res2 =>
      if o.x ≤ xMax then rangoFuel fuel r xMin xMax yMin yMax res2 else some res2

def inorderFuel : Nat → NodoAVL → List Obstaculo → Option (List Obstaculo)
  | 0, _, _ => none
  | _ + 1, .nil, res => some res
  | fuel + 1, .node o l r _, res =>
    match inorderFuel fuel l res with
    | none => none
    | some res1 => inorderFuel fuel r (res1 ++ [o])

def bfsFuel : Nat → List NodoAVL → List Obstaculo → Option (List Obstaculo)
  | 0, _, _ => none
  | _ + 1, [], res => some res
  | fuel + 1, .nil :: cola, res => bfsFuel fuel cola res
  | fuel + 1, .node o l r _ :: cola, res =>
    bfsFuel fuel (cola ++ (if esNodo l = true then [l] else [])
        ++ (if esNodo r = true then [r] else []))
      (res ++ [o])

lemma insertarFuel_eq : ∀ (fuel : Nat) (t : NodoAVL) (o : Obstaculo), sizeT t < fuel →
    insertarFuel fuel t o = some (insertarRec t o)
  | 0, t, o, hf => absurd hf (by omega)
  | fuel + 1, .nil, o, _ => rfl
  | fuel + 1, .node no l r h, o, hf => by
    have hl : sizeT l < fuel := by simp only [sizeT] at hf; omega
    have hr : sizeT r < fuel := by simp only [sizeT] at hf; omega
    simp only [insertarFuel, insertarRec]
    split_ifs with hcmp
    · rw [insertarFuel_eq fuel l o hl]
      rfl
    · rw [insertarFuel_eq fuel r o hr]
      rfl

lemma buscarFuel_eq : ∀ (fuel : Nat) (t : NodoAVL) (o : Obstaculo), sizeT t < fuel →
    buscarFuel fuel t o = some (buscarObstaculo t o)
  | 0, t, o, hf => absurd hf (by omega)
  | fuel + 1, .nil, o, _ => rfl
  | fuel + 1, .node no l r h, o, hf => by
    have hl : sizeT l < fuel := by simp only [sizeT] at hf; omega
    have hr : sizeT r < fuel := by simp only [sizeT] at hf; omega
    simp only [buscarFuel, buscarObstaculo]
    split_ifs with heq hcmp
    · rfl
    · exact buscarFuel_eq fuel l o hl
    · exact buscarFuel_eq fuel r o hr

lemma eliminarFuel_eq : ∀ (fuel : Nat) (t : NodoAVL) (o : Obstaculo), sizeT t < fuel →
    eliminarFuel fuel t o = some (eliminarRec t o)
  | 0, t, o, hf => absurd hf (by omega)
  | fuel + 1, .nil, o, _ => rfl
  | fuel + 1, .node no l r h, o, hf => by
    have hl : sizeT l < fuel := by simp only [sizeT] at hf; omega
    have hr : sizeT r < fuel := by simp only [sizeT] at hf; omega
    rw [eliminarFuel.eq_def, eliminarRec.eq_def]
    simp only []
    split_ifs with heq hcmp
    · cases l with
      | nil =>
        cases r with
        | nil => rfl
        | node ro rl rr rh => rfl
      | node lo ll lr lh =>
        cases r with
        | nil => rfl
        | node ro rl rr rh =>
          simp only []
          rw [eliminarFuel_eq fuel (.node ro rl rr rh) (encontrarMinimo ro rl) hr]
          rfl
    · rw [eliminarFuel_eq fuel l o hl]
      rfl
    · rw [eliminarFuel_eq fuel r o hr]
      rfl

lemma rangoFuel_eq : ∀ (fuel : Nat) (t : NodoAVL) (xMin xMax yMin yMax : Int)
    (res : List Obstaculo), sizeT t < fuel →
    rangoFuel fuel t xMin xMax yMin yMax res
      = some (buscarRangoRec t xMin xMax yMin yMax res)
  | 0, t, _, _, _, _, res, hf => absurd hf (by omega)
  | fuel + 1, .nil, _, _, _, _, res, _ => rfl
  | fuel + 1, .node o l r h, xMin, xMax, yMin, yMax, res, hf => by
    have hl : sizeT l < fuel := by simp only [sizeT] at hf; omega
    have hr : sizeT r < fuel := by simp only [sizeT] at hf; omega
    simp only [rangoFuel, buscarRangoRec]
    split_ifs with h1 h2 h3 <;>
      simp [rangoFuel_eq fuel l xMin xMax yMin yMax _ hl,
        rangoFuel_eq fuel r xMin xMax yMin yMax _ hr]

lemma inorderFuel_eq : ∀ (fuel : Nat) (t : NodoAVL) (res : List Obstaculo),
    sizeT t < fuel → inorderFuel fuel t res = some (inorderRec t res)
  | 0, t, res, hf => absurd hf (by omega)
  | fuel + 1, .nil, res, _ => rfl
  | fuel + 1, .node o l r h, res, hf => by
    have hl : sizeT l < fuel := by simp only [sizeT] at hf; omega
    have hr : sizeT r < fuel := by simp only [sizeT] at hf; omega
    simp only [inorderFuel, inorderRec]
    rw [inorderFuel_eq fuel l res hl]
    simp only []
    exact inorderFuel_eq fuel r (inorderRec l res ++ [o]) hr

lemma bfsFuel_eq : ∀ (fuel : Nat) (cola : List NodoAVL) (res : List Obstaculo),
    2 * (cola.map sizeT).sum + cola.length < fuel →
    bfsFuel fuel cola res = some (bfsLoop cola res)
  | 0, cola, res, hf => absurd hf (by omega)
  | fuel + 1, [], res, _ => by rw [bfsFuel, bfsLoop]
  | fuel + 1, .nil :: cola, res, hf => by
    have hm : 2 * (cola.map sizeT).sum + cola.length < fuel := by
      simp only [List.map_cons, List.sum_cons, sizeT, List.length_cons] at hf ⊢
      omega
    rw [bfsFuel, bfsLoop, bfsFuel_eq fuel cola res hm]
  | fuel + 1, .node o l r h :: cola, res, hf => by
    have hm : 2 * ((cola ++ (if esNodo l = true then [l] else [])
          ++ (if esNodo r = true then [r] else [])).map sizeT).sum
        + (cola ++ (if esNodo l = true then [l] else [])
          ++ (if esNodo r = true then [r] else [])).length < fuel := by
      cases l <;> cases r <;> simp [esNodo, sizeT] at hf ⊢ <;> try omega
    rw [bfsFuel, bfsLoop, bfsFuel_eq fuel _ _ hm]

/-!  Helper lemmas shared by the claim theorems. -/

instance : IsTrans Obstaculo lexLt := ⟨fun _ _ _ => lexLt_trans⟩

/-- Root entry of the tree, None when empty. -/
def raizObstaculo (a : ArbolAVL) : Option Obstaculo :=
  match a.raiz with
  | .nil => none
  | .node o _ _ _ => some o

lemma insertar_conocida (a : ArbolAVL) (o : Obstaculo) (hord : Ordered a.raiz)
    (hc : ContainsKey a.raiz o) : insertar a o = (false, a) := by
  have hs := (buscarObstaculo_correct a.raiz o hord).mpr hc
  rcases a with ⟨raiz, total⟩
  cases raiz with
  | nil => simp [ContainsKey, inorder] at hc
  | node ro rl rr rh => simp [insertar, hs]

lemma insertar_nueva (a : ArbolAVL) (o : Obstaculo) (hord : Ordered a.raiz)
    (habs : ¬ ContainsKey a.raiz o) : (insertar a o).1 = true := by
  rcases a with ⟨raiz, total⟩
  cases raiz with
  | nil => rfl
  | node ro rl rr rh =>
    have hs : (buscarObstaculo (NodoAVL.node ro rl rr rh) o).isSome = false := by
      cases hb : (buscarObstaculo (NodoAVL.node ro rl rr rh) o).isSome with
      | false => rfl
      | true => exact absurd ((buscarObstaculo_correct _ o hord).mp hb) habs
    simp [insertar, hs]

lemma eliminar_ausente (a : ArbolAVL) (o : Obstaculo) (hord : Ordered a.raiz)
    (habs : ¬ ContainsKey a.raiz o) : eliminar a o = (false, a) := by
  rcases a with ⟨raiz, total⟩
  cases raiz with
  | nil => rfl
  | node ro rl rr rh =>
    have hs : (buscarObstaculo (NodoAVL.node ro rl rr rh) o).isSome = false := by
      cases hb : (buscarObstaculo (NodoAVL.node ro rl rr rh) o).isSome with
      | false => rfl
      | true => exact absurd ((buscarObstaculo_correct _ o hord).mp hb) habs
    simp [eliminar, hs]

lemma eliminar_conocida (a : ArbolAVL) (o : Obstaculo) (hord : Ordered a.raiz)
    (hc : ContainsKey a.raiz o) : (eliminar a o).1 = true := by
  have hs := (buscarObstaculo_correct a.raiz o hord).mpr hc
  rcases a with ⟨raiz, total⟩
  cases raiz with
  | nil => simp [ContainsKey, inorder] at hc
  | node ro rl rr rh => simp [eliminar, hs]

/-- Concrete obstacle used by the concrete scenarios below. -/
def obst (x y : Int) : Obstaculo := Obstaculo.crear x y TipoObstaculo.roca 30 30

/-!  The claims. -/

/-- C1: for every tree obtained from the empty tree by any sequence of
insertar and eliminar calls, every node has a balance factor (left
subtree height minus right subtree height) in \x7b-1, 0, 1\x7d when the
call returns. -/
theorem claim_c1 (ops : List Op) : BalFactorsOk (runOps ops).raiz := by
  obtain ⟨-, hOk, hB, -⟩ := inv_runOps ops
  exact balFactorsOk_of _ hOk hB

/-- C2: for every tree obtained from the empty tree by any sequence of
insertar and eliminar calls, recorrido_en_profundidad lists the stored
entries in strictly ascending lexicographic order of (x, y). -/
theorem claim_c2 (ops : List Op) :
    List.Chain' lexLt (recorridoEnProfundidad (runOps ops)) := by
  rw [recorridoEnProfundidad_eq, List.chain'_iff_pairwise]
  exact (ordered_iff_pairwise _).mp (inv_runOps ops).1

/-- C6: after any sequence of insertar and eliminar calls starting from
the empty tree, obtener_total_obstaculos equals the number of insertar
calls that returned True minus the number of eliminar calls that
returned True, and equals the length of recorrido_en_profundidad. -/
theorem claim_c6 (ops : List Op) :
    obtenerTotalObstaculos (ejecutar arbolVacio ops).1
      = ((ejecutar arbolVacio ops).2.1 : Int) - ((ejecutar arbolVacio ops).2.2 : Int) ∧
    obtenerTotalObstaculos (ejecutar arbolVacio ops).1
      = ((recorridoEnProfundidad (ejecutar arbolVacio ops).1).length : Int) := by
  obtain ⟨⟨-, -, -, hlen⟩, htot⟩ := ejecutar_spec ops arbolVacio inv_arbolVacio
  constructor
  · rw [obtenerTotalObstaculos, htot]
    simp [arbolVacio]
  · rw [obtenerTotalObstaculos, hlen, recorridoEnProfundidad_eq]

/-- C7: inserting the keys (1,0), (2,0), (3,0) in ascending order yields
a tree whose root entry is keyed (2,0) with root altura 2 (both the
stored altura and the real height), and inserting (3,0), (1,0), (2,0)
also leaves the entry keyed (2,0) at the root. -/
theorem claim_c7 :
    raizObstaculo (runOps [Op.ins (obst 1 0), Op.ins (obst 2 0), Op.ins (obst 3 0)])
      = some (obst 2 0) ∧
    alturaOpt (runOps [Op.ins (obst 1 0), Op.ins (obst 2 0), Op.ins (obst 3 0)]).raiz = 2 ∧
    alturaReal (runOps [Op.ins (obst 1 0), Op.ins (obst 2 0), Op.ins (obst 3 0)]).raiz = 2 ∧
    raizObstaculo (runOps [Op.ins (obst 3 0), Op.ins (obst 1 0), Op.ins (obst 2 0)])
      = some (obst 2 0) := by
  decide

/-- C8: every recursive procedure of the tree and the breadth-first loop
terminate: the fueled variants, given fuel bounded by the node count of
the subtree (resp. the decreasing measure of the queue), never run out
and compute the functions of this development. -/
theorem claim_c8 (t : NodoAVL) (o : Obstaculo) (xMin xMax yMin yMax : Int)
    (res : List Obstaculo) (cola : List NodoAVL) :
    insertarFuel (sizeT t + 1) t o = some (insertarRec t o) ∧
    eliminarFuel (sizeT t + 1) t o = some (eliminarRec t o) ∧
    buscarFuel (sizeT t + 1) t o = some (buscarObstaculo t o) ∧
    rangoFuel (sizeT t + 1) t xMin xMax yMin yMax res
      = some (buscarRangoRec t xMin xMax yMin yMax res) ∧
    inorderFuel (sizeT t + 1) t res = some (inorderRec t res) ∧
    bfsFuel (2 * (cola.map sizeT).sum + cola.length + 1) cola res
      = some (bfsLoop cola res) :=
  ⟨insertarFuel_eq _ t o (by omega), eliminarFuel_eq _ t o (by omega),
   buscarFuel_eq _ t o (by omega), rangoFuel_eq _ t xMin xMax yMin yMax res (by omega),
   inorderFuel_eq _ t res (by omega), bfsFuel_eq _ cola res (by omega)⟩

lemma eliminar_raiz (a : ArbolAVL) (o : Obstaculo) (hord : Ordered a.raiz)
    (hc : ContainsKey a.raiz o) : (eliminar a o).2.raiz = eliminarRec a.raiz o := by
  have hs := (buscarObstaculo_correct a.raiz o hord).mpr hc
  rcases a with ⟨raiz, total⟩
  cases raiz with
  | nil => simp [ContainsKey, inorder] at hc
  | node ro rl rr rh => simp [eliminar, hs]

/-- C3: on an ordered tree, buscar_en_rango returns exactly the stored
entries whose x lies in [xMin, xMax] and whose y lies in [yMin, yMax],
and an empty box yields an empty answer. -/
theorem claim_c3 (a : ArbolAVL) (xMin xMax yMin yMax : Int) (hord : Ordered a.raiz) :
    (∀ e : Obstaculo, e ∈ buscarEnRango a xMin xMax yMin yMax ↔
      e ∈ recorridoEnProfundidad a ∧
        (xMin ≤ e.x ∧ e.x ≤ xMax) ∧ (yMin ≤ e.y ∧ e.y ≤ yMax)) ∧
    ((xMax < xMin ∨ yMax < yMin) → buscarEnRango a xMin xMax yMin yMax = []) := by
  have key : ∀ e : Obstaculo, e ∈ buscarEnRango a xMin xMax yMin yMax ↔
      e ∈ inorder a.raiz ∧ (xMin ≤ e.x ∧ e.x ≤ xMax) ∧ (yMin ≤ e.y ∧ e.y ≤ yMax) := by
    intro e
    rw [show buscarEnRango a xMin xMax yMin yMax
        = buscarRangoRec a.raiz xMin xMax yMin yMax [] from rfl]
    rw [mem_buscarRangoRec xMin xMax yMin yMax a.raiz hord [] e]
    simp [esta_en_rango_eq_true_iff]
  constructor
  · intro e
    rw [recorridoEnProfundidad_eq]
    exact key e
  · intro hempty
    apply List.eq_nil_iff_forall_not_mem.mpr
    intro e he
    obtain ⟨-, h1, h2⟩ := (key e).mp he
    rcases hempty with hx | hy <;> omega

def opsC3 : List Op := [Op.ins (obst 10 0), Op.ins (obst 5 1), Op.ins (obst 20 2),
  Op.ins (obst 5 0), Op.ins (obst 15 1)]

theorem claim_c3_witness :
    Ordered (runOps opsC3).raiz ∧
    (∀ e : Obstaculo, e ∈ buscarEnRango (runOps opsC3) 5 15 0 2 ↔
      e ∈ recorridoEnProfundidad (runOps opsC3) ∧
        (5 ≤ e.x ∧ e.x ≤ 15) ∧ (0 ≤ e.y ∧ e.y ≤ 2)) ∧
    buscarEnRango (runOps opsC3) 5 15 0 2 = [obst 10 0, obst 5 1, obst 5 0, obst 15 1] :=
  ⟨by decide, (claim_c3 (runOps opsC3) 5 15 0 2 (by decide)).1, by decide⟩

/-- C4: on an ordered tree, inserting an already stored coordinate pair
returns False and leaves the state untouched, deleting a missing pair
returns False and leaves the state untouched, inserting an absent key
returns True, and deleting a present key returns True. -/
theorem claim_c4 (a : ArbolAVL) (o : Obstaculo) (hord : Ordered a.raiz) :
    (ContainsKey a.raiz o → insertar a o = (false, a)) ∧
    (¬ ContainsKey a.raiz o → (insertar a o).1 = true) ∧
    (¬ ContainsKey a.raiz o → eliminar a o = (false, a)) ∧
    (ContainsKey a.raiz o → (eliminar a o).1 = true) :=
  ⟨insertar_conocida a o hord, insertar_nueva a o hord, eliminar_ausente a o hord,
   eliminar_conocida a o hord⟩

theorem claim_c4_witness :
    Ordered (runOps opsC3).raiz ∧
    ContainsKey (runOps opsC3).raiz (obst 10 0) ∧
    ¬ ContainsKey (runOps opsC3).raiz (obst 99 9) ∧
    insertar (runOps opsC3) (obst 10 0) = (false, runOps opsC3) ∧
    (eliminar (runOps opsC3) (obst 10 0)).1 = true ∧
    (insertar (runOps opsC3) (obst 99 9)).1 = true ∧
    eliminar (runOps opsC3) (obst 99 9) = (false, runOps opsC3) :=
  ⟨by decide, by decide, by decide,
   (claim_c4 (runOps opsC3) (obst 10 0) (by decide)).1 (by decide),
   (claim_c4 (runOps opsC3) (obst 10 0) (by decide)).2.2.2 (by decide),
   (claim_c4 (runOps opsC3) (obst 99 9) (by decide)).2.1 (by decide),
   (claim_c4 (runOps opsC3) (obst 99 9) (by decide)).2.2.1 (by decide)⟩

/-- C5: deleting a present key from an ordered tree returns True and
leaves an in-order listing equal to the original listing with the first
(only) entry of that key removed, still strictly ascending; when the hit
node has two children the code replaces its entry with the in-order
successor (the minimum of the right subtree) and deletes that successor
from the right subtree. -/
theorem claim_c5 (a : ArbolAVL) (o : Obstaculo) (hord : Ordered a.raiz)
    (hc : ContainsKey a.raiz o) :
    (eliminar a o).1 = true ∧
    recorridoEnProfundidad (eliminar a o).2
      = eliminarClave o (recorridoEnProfundidad a) ∧
    List.Chain' lexLt (recorridoEnProfundidad (eliminar a o).2) ∧
    (∀ (e lo ro : Obstaculo) (ll lr rl rr : NodoAVL) (lh rh h : Int),
      a.raiz = .node e (.node lo ll lr lh) (.node ro rl rr rh) h →
      esIgualA e o = true →
      eliminarRec a.raiz o
        = balancear (conAltura (encontrarMinimo ro rl) (.node lo ll lr lh)
            (eliminarRec (.node ro rl rr rh) (encontrarMinimo ro rl)))) := by
  refine ⟨eliminar_conocida a o hord hc, ?_, ?_, ?_⟩
  · rw [recorridoEnProfundidad_eq, recorridoEnProfundidad_eq, eliminar_raiz a o hord hc,
      inorder_eliminarRec _ o hord]
  · rw [recorridoEnProfundidad_eq, eliminar_raiz a o hord hc, List.chain'_iff_pairwise]
    exact (ordered_iff_pairwise _).mp (ordered_eliminarRec a.raiz o hord)
  · intro e lo ro ll lr rl rr lh rh h ha heq
    rw [ha, eliminarRec.eq_def]
    simp [heq]

def opsC5 : List Op := [Op.ins (obst 30 1), Op.ins (obst 10 0), Op.ins (obst 40 2),
  Op.ins (obst 5 0), Op.ins (obst 20 1)]

theorem claim_c5_witness :
    Ordered (runOps opsC5).raiz ∧
    ContainsKey (runOps opsC5).raiz (obst 30 1) ∧
    (eliminar (runOps opsC5) (obst 30 1)).1 = true ∧
    recorridoEnProfundidad (eliminar (runOps opsC5) (obst 30 1)).2
      = [obst 5 0, obst 10 0, obst 20 1, obst 40 2] :=
  ⟨by decide, by decide,
   (claim_c5 (runOps opsC5) (obst 30 1) (by decide) (by decide)).1, by decide⟩

/-- C9: on a tree reached from the empty tree, inserting an absent key
and then deleting it returns True both times and restores the exact
in-order listing. -/
theorem claim_c9 (ops : List Op) (o : Obstaculo)
    (habs : ¬ ContainsKey (runOps ops).raiz o) :
    (insertar (runOps ops) o).1 = true ∧
    (eliminar (insertar (runOps ops) o).2 o).1 = true ∧
    recorridoEnProfundidad (eliminar (insertar (runOps ops) o).2 o).2
      = recorridoEnProfundidad (runOps ops) := by
  have hInv := inv_runOps ops
  obtain ⟨hIns, hIff, hSucc, -⟩ := insertar_spec (runOps ops) o hInv
  have hb1 : (insertar (runOps ops) o).1 = true := hIff.mpr habs
  obtain ⟨hchar, -⟩ := hSucc hb1
  have hC : ContainsKey (insertar (runOps ops) o).2.raiz o := by
    refine ⟨o, ?_, claveEq_refl o⟩
    rw [hchar]
    exact mem_insertarOrdenado.mpr (Or.inl rfl)
  obtain ⟨hE, hEIff, hESucc, -⟩ := eliminar_spec _ o hIns
  have hb2 : (eliminar (insertar (runOps ops) o).2 o).1 = true := hEIff.mpr hC
  obtain ⟨hdel, -⟩ := hESucc hb2
  refine ⟨hb1, hb2, ?_⟩
  rw [recorridoEnProfundidad_eq, recorridoEnProfundidad_eq, hdel, hchar]
  exact eliminarClave_insertarOrdenado o _ fun x hx hcx => habs ⟨x, hx, hcx⟩

theorem claim_c9_witness :
    ¬ ContainsKey (runOps opsC3).raiz (obst 7 1) ∧
    (insertar (runOps opsC3) (obst 7 1)).1 = true ∧
    (eliminar (insertar (runOps opsC3) (obst 7 1)).2 (obst 7 1)).1 = true ∧
    recorridoEnProfundidad (eliminar (insertar (runOps opsC3) (obst 7 1)).2 (obst 7 1)).2
      = recorridoEnProfundidad (runOps opsC3) :=
  ⟨by decide, (claim_c9 opsC3 (obst 7 1) (by decide)).1,
   (claim_c9 opsC3 (obst 7 1) (by decide)).2.1,
   (claim_c9 opsC3 (obst 7 1) (by decide)).2.2⟩

/-- C10: duplicate detection compares only the coordinate pair: inserting
any obstacle whose coordinates equal those of a stored entry returns
False and leaves the state - including the stored entry's attributes -
untouched, whatever its tipo and dimensions. -/
theorem claim_c10 (a : ArbolAVL) (e o : Obstaculo) (hord : Ordered a.raiz)
    (hmem : e ∈ recorridoEnProfundidad a) (hx : e.x = o.x) (hy : e.y = o.y) :
    insertar a o = (false, a) ∧
    recorridoEnProfundidad (insertar a o).2 = recorridoEnProfundidad a := by
  have hc : ContainsKey a.raiz o :=
    ⟨e, by rw [← recorridoEnProfundidad_eq]; exact hmem, hx, hy⟩
  have h1 := insertar_conocida a o hord hc
  exact ⟨h1, by rw [h1]⟩

def arbolC10 : ArbolAVL := runOps [Op.ins (obst 3 1), Op.ins (obst 8 2)]

def otroC10 : Obstaculo := Obstaculo.crear 3 1 TipoObstaculo.barrera 50 30

theorem claim_c10_witness :
    Ordered arbolC10.raiz ∧
    obst 3 1 ∈ recorridoEnProfundidad arbolC10 ∧
    (obst 3 1).tipo ≠ otroC10.tipo ∧ (obst 3 1).alto ≠ otroC10.alto ∧
    insertar arbolC10 otroC10 = (false, arbolC10) :=
  ⟨by decide, by decide, by decide, by decide,
   (claim_c10 arbolC10 (obst 3 1) otroC10 (by decide) (by decide)
     (by decide) (by decide)).1⟩
